import Mathlib

/-!
# A verification development for the `pd_inject` release-resolution engine

This file gives a shallow embedding, in Lean 4, of the core algorithmic parts
of the `pd_inject` repository (files `src/main.py`, `src/modules/common.py`,
`src/modules/torrentio.py`, `src/modules/realdebrid.py`) and proves properties
of that embedding.

Modelling conventions, used throughout:

* Python `float` values are modelled as exact rationals (`ℚ`).  All float
  values appearing in the program are produced by parsing short decimal
  strings or by dividing small integers, so the exact-rational model agrees
  with the program on every input considered in the theorems below.
* Python strings are modelled as `String` / `List Char`.  The specific regular
  expressions used by the source are modelled by hand-written scanners over
  `List Char` that implement the same leftmost-match/backtracking semantics
  those regexes have (each scanner is documented next to the regex it embeds).
  `\d` is modelled as an ASCII digit.
* Python's `list.sort(key=k, reverse=True)` is a *stable descending* sort by
  `k`: the result is ordered by `k` descending and elements with equal keys
  keep their original relative order.  It is embedded as Mathlib's
  `List.insertionSort r` with `r a b := k b ≤ k a` ("a may be placed before
  b"), which is stable with exactly the same input/output behaviour.
* Python dictionaries with string keys are modelled as association lists, and
  dict iteration order (insertion order) as list order.
* A raised-and-not-caught Python exception is modelled by an explicit error
  value (`Except`, or a dedicated constructor); code that the source wraps in
  a `try`/`except` that swallows the exception is modelled by the value the
  `except` branch produces.
-/

namespace PdInject

/-! ## Stable descending sorts (embedding of Python `list.sort(key, reverse=True)`)

`RK k a b` says that, for the single sort key `k`, element `a` may be placed
before element `b` in the descending result: `k b ≤ k a`.  The stable sort
itself is `List.insertionSort (RK k)`.

`RLex ks` is the corresponding relation for a list of keys compared
lexicographically (first key most significant), which is how Python compares
the key *tuples* used in `realdebrid.check` and which also arises as the
net effect of several consecutive stable one-key passes. -/

variable {α : Type*}

/-- "`a` may precede `b`" for one descending sort key. -/
def RK (k : α → ℚ) (a b : α) : Prop := k b ≤ k a

instance (k : α → ℚ) : DecidableRel (RK k) := fun _ _ => inferInstanceAs (Decidable (_ ≤ _))

/-- "`a` may precede `b`" for a list of descending sort keys compared
lexicographically, most significant key first.  `RLex [] a b` holds, so ties
on every key are allowed in both orders (stability then keeps original
order). -/
def RLex : List (α → ℚ) → α → α → Prop
  | [] => fun _ _ => True
  | k :: ks => fun a b => k b < k a ∨ (k a = k b ∧ RLex ks a b)

instance RLex.instDecidable : (ks : List (α → ℚ)) → DecidableRel (RLex ks)
  | [] => fun _ _ => isTrue trivial
  | _ :: ks => fun a b =>
      have := RLex.instDecidable ks a b
      inferInstanceAs (Decidable (_ ∨ _))

/-- The element a stable descending sort puts first: the first element of the
list (in original order) that is `r`-above the rest. -/
def firstMax (r : α → α → Prop) [DecidableRel r] : List α → Option α
  | [] => none
  | a :: l => some ((firstMax r l).elim a (fun m => if r a m then a else m))

/-! ## Lexical matchers (src/modules/common.py, class `match`)

`match.video_formats` is the regex `(\.)(YUV|WMV|...)$` with `regex.I`: the
filename matches iff, case-insensitively, it ends in a dot followed by one of
the listed extensions.  `match.sample_formats` is `(sample)` with `regex.I`:
a case-insensitive substring search. -/

def lowerL (l : List Char) : List Char := l.map Char.toLower

/-- The extension alternatives of `match.video_formats`, lowercased and with
the leading dot attached (the regex anchors them at the end of the string). -/
def video_formats : List (List Char) :=
  [".yuv", ".wmv", ".webm", ".vob", ".viv", ".svi", ".roq", ".rmvb", ".rm",
   ".ogv", ".ogg", ".nsv", ".mxf", ".mts", ".m2ts", ".ts", ".mpg", ".mpeg",
   ".m2v", ".mp2", ".mpe", ".mpv", ".mp4", ".m4p", ".m4v", ".mov", ".qt",
   ".mng", ".mkv", ".flv", ".drc", ".avi", ".asf", ".amv"].map String.toList

/-- The extension alternatives of `match.subtitle_formats`. -/
def subtitle_formats : List (List Char) :=
  [".srt", ".ass", ".vtt", ".sub", ".idx", ".pgs"].map String.toList

/-- `match.video(filename)`: a video extension at the end and no "sample"
substring (both case-insensitive). -/
def match_video (name : List Char) : Bool :=
  (video_formats.any fun e => e.isSuffixOf (lowerL name))
    && !(decide ("sample".toList <:+: lowerL name))

/-- `match.subtitle(filename)`. -/
def match_subtitle (name : List Char) : Bool :=
  subtitle_formats.any fun e => e.isSuffixOf (lowerL name)

/-- Numeric value of an ASCII digit run (`int(...)` on the matched group). -/
def digitsVal (l : List Char) : ℕ :=
  l.foldl (fun n c => 10 * n + (c.toNat - '0'.toNat)) 0

/-- The separator class `[\.\-\_\s]` of `match.season_formats` /
`match.episode_formats`. -/
def isSepChar (c : Char) : Bool :=
  c == '.' || c == '-' || c == '_' || c.isWhitespace

/-- Matching `[\.\-\_\s]?(\d+)` at the current position (with the regex's
backtracking: a consumed separator is given back if no digits follow it),
returning the value of the digit group. -/
def optSepDigits (l : List Char) : Option ℕ :=
  match l with
  | [] => none
  | c :: rest =>
    if c.isDigit then some (digitsVal (l.takeWhile Char.isDigit))
    else if isSepChar c then
      match rest with
      | [] => none
      | d :: _ => if d.isDigit then some (digitsVal (rest.takeWhile Char.isDigit)) else none
    else none

/-- Leftmost-match scanner for `(?:KW|K)[\.\-\_\s]?(\d+)` with `regex.I`
(`match.season_formats` with `KW = season`, `K = s`; `match.episode_formats`
with `KW = episode`, `K = e`): at each position try the long keyword, then the
single letter, then advance. -/
def kwNumScan (kw : List Char) (k1 : Char) : List Char → Option ℕ
  | [] => none
  | c :: rest =>
    ((if kw.isPrefixOf (lowerL (c :: rest)) then optSepDigits ((c :: rest).drop kw.length)
      else none).orElse
      (fun _ => if c.toLower = k1 then optSepDigits rest else none)).orElse
      (fun _ => kwNumScan kw k1 rest)

/-- `match.season(filename)` (`None` ↦ `none`). -/
def match_season (name : List Char) : Option ℕ := kwNumScan "season".toList 's' name

/-- `match.episode(filename)`. -/
def match_episode (name : List Char) : Option ℕ := kwNumScan "episode".toList 'e' name

/-! ## The size expression of `torrentio.scrape` (src/modules/torrentio.py line 66)

The regex is `(?<=💾 )([0-9]+.?[0-9]+)(?= GB)` (and the same with `MB`),
searched with `regex.search`.  Its semantics: find the leftmost position
whose two preceding characters are `💾` and a space, at which a digit run,
an optional arbitrary non-newline character, and a further digit run can be
matched such that the lookahead ` GB` follows.  At any one position the
extent of a successful match is uniquely determined (the matched text always
ends right before ` GB`, and can contain at most one non-digit character),
so the backtracking order does not matter and the scanners below compute the
exact matched text. -/

/-- The lookahead `(?= GB)` / `(?= MB)` (`u` is `'G'` or `'M'`). -/
def lookUnit (u : Char) (l : List Char) : Bool :=
  match l with
  | a :: c :: b :: _ => a == ' ' && c == u && b == 'B'
  | _ => false

/-- Matching `([0-9]+.?[0-9]+)(?= GB)` at a fixed position. -/
def sizeNumAt (u : Char) (cs : List Char) : Option (List Char) :=
  let r := cs.takeWhile Char.isDigit
  let rest := cs.dropWhile Char.isDigit
  if r.isEmpty then none
  else if 2 ≤ r.length ∧ lookUnit u rest then some r
  else
    match rest with
    | [] => none
    | c :: cs2 =>
      if c = '\n' then none
      else
        let r2 := cs2.takeWhile Char.isDigit
        let rest2 := cs2.dropWhile Char.isDigit
        if (¬ r2.isEmpty) ∧ lookUnit u rest2 then some (r ++ c :: r2) else none

/-- The leftmost-position search: try every position whose two preceding
characters are `💾` and `' '` (the lookbehind), left to right. -/
def sizeSearch (u : Char) : List Char → Option (List Char)
  | a :: b :: rest =>
    if a = '💾' ∧ b = ' ' then
      match sizeNumAt u rest with
      | some m => some m
      | none => sizeSearch u (b :: rest)
    else sizeSearch u (b :: rest)
  | _ => none

/-- Python `float()` on a matched size group.  The match always has the shape
"digit run" or "digit run, one non-digit character, digit run"; `float`
accepts `.` (decimal point), `e`/`E` (exponent) and `_` (digit-group
separator) there and raises `ValueError` (modelled `none`) on anything
else. -/
def pyFloatOfMatch (m : List Char) : Option ℚ :=
  let d1 := m.takeWhile Char.isDigit
  match m.dropWhile Char.isDigit with
  | [] => some (digitsVal d1 : ℚ)
  | c :: d2 =>
    if c = '.' then some ((digitsVal d1 : ℚ) + (digitsVal d2 : ℚ) / (10 : ℚ) ^ d2.length)
    else if c = 'e' ∨ c = 'E' then some ((digitsVal d1 : ℚ) * (10 : ℚ) ^ digitsVal d2)
    else if c = '_' then some (digitsVal (d1 ++ d2) : ℚ)
    else none

/-- The whole size expression of `torrentio.scrape` line 66.
`none` models the `ValueError` raised by `float()` (which skips the whole
entry, per the surrounding `try`/`except ... continue`); `some q` is the
computed `sizeGB`. -/
def torrentio_size (title : List Char) : Option ℚ :=
  match sizeSearch 'G' title with
  | some m => pyFloatOfMatch m
  | none =>
    match sizeSearch 'M' title with
    | some m => (pyFloatOfMatch m).map (· / 1000)
    | none => some 0

/-- The number shapes the group `([0-9]+.?[0-9]+)` can actually match when it
is followed by the unit lookahead: a digit run of length at least two, or a
nonempty digit run, a decimal point and another nonempty digit run.  (A
single digit, like in `"💾 5 GB"`, is *not* matchable.) -/
def GoodNum (n : List Char) : Prop :=
  (2 ≤ n.length ∧ ∀ c ∈ n, Char.isDigit c) ∨
  (∃ d1 d2, n = d1 ++ '.' :: d2 ∧ d1 ≠ [] ∧ d2 ≠ [] ∧
    (∀ c ∈ d1, Char.isDigit c) ∧ (∀ c ∈ d2, Char.isDigit c))

/-! ## Data model

The release dictionaries flowing through the pipeline.  Fields carry the
source's key names (`'type'` becomes `rtype`).  The fields `cached`,
`versions`, `videos`, `episodes`, `seasons` and `rtype` are absent from the
dict built by `torrentio.scrape` and only added by `realdebrid.check` /
`type_filter`; the model gives them inert defaults.  Code paths on which the
source would hit a missing key (`KeyError`) are treated explicitly at the
claims about error handling. -/

/-- A file record as built by `realdebrid.check` lines 56-64. -/
structure FileEntry where
  name : String
  size : ℚ
  id : String
  video : Bool
  subtitle : Bool
  season : Option ℕ
  episode : Option ℕ
deriving DecidableEq

/-- A `version` dict as built by `realdebrid.check` lines 54-72 (field
defaults are the dict literal of line 54). -/
structure Version where
  size : ℚ := 0
  files : List FileEntry := []
  videos : ℕ := 0
  episodes : ℕ := 0
  subtitles : ℕ := 0
  seasons : List ℕ := []
deriving DecidableEq

/-- A release dict (`torrentio.scrape` lines 73-82 plus the keys added by
`realdebrid.check` lines 33-34 and 80-86 and `common.releases.type_filter`). -/
structure Release where
  title : String := ""
  languages : List String := ["EN"]
  resolution : ℕ := 0
  size : ℚ := 0
  seeders : ℕ := 0
  source : String := "unknown"
  magnet : String := ""
  hash : String := ""
  cached : List String := []
  versions : List Version := []
  videos : ℕ := 0
  episodes : ℕ := 0
  seasons : List ℕ := []
  rtype : String := ""
deriving DecidableEq

/-! ## `realdebrid.check` (src/modules/realdebrid.py lines 19-95) -/

/-- One reported file of the instantAvailability response: its dict key and
its `filename` / `filesize` (bytes) fields. -/
structure RDFile where
  id : String
  filename : String
  filesize : ℕ
deriving DecidableEq

/-- One reported file grouping (one element of `response[hash]['rd']`), with
its files in dict iteration (= insertion) order. -/
abbrev RDGroup := List RDFile

/-- The parsed response: each hash that is present *and* has an `rd` key,
with its grouping list.  A hash missing from the association list models
both "hash not in response" and "no `rd` key". -/
abbrev RDResponse := List (String × List RDGroup)

def rdLookup (resp : RDResponse) (h : String) : Option (List RDGroup) :=
  (resp.find? (fun p => p.1 == h)).map Prod.snd

/-- `realdebrid.check` lines 56-64: one `FileEntry` from one reported file.
Note `8 * 1024 * 1024 * 1024 = 2 ^ 33` (the code comment says "Convert size
to GB", but a GiB is `2 ^ 30` bytes). -/
def mkFileEntry (fi : RDFile) : FileEntry :=
  { name := fi.filename
    size := (fi.filesize : ℚ) / ((8 : ℚ) * 1024 * 1024 * 1024)
    id := fi.id
    video := match_video fi.filename.toList
    subtitle := match_subtitle fi.filename.toList
    season := match_season fi.filename.toList
    episode := match_episode fi.filename.toList }

/-- Python truthiness of the season/episode value: `None` and `0` are
falsy. -/
def optTruthy : Option ℕ → Bool
  | none => false
  | some n => n != 0

/-- One iteration of `for id in files` (lines 55-71). -/
def addFile (v : Version) (fi : RDFile) : Version :=
  let f := mkFileEntry fi
  { files := v.files ++ [f]
    size := v.size + f.size
    videos := v.videos + (if f.video then 1 else 0)
    subtitles := v.subtitles + (if f.subtitle then 1 else 0)
    seasons :=
      if optTruthy f.season ∧ f.video ∧ f.season.getD 0 ∉ v.seasons
      then v.seasons ++ [f.season.getD 0] else v.seasons
    episodes := v.episodes + (if optTruthy f.episode ∧ f.video then 1 else 0) }

/-- The `version` built for one grouping. -/
def buildVersion (g : RDGroup) : Version := g.foldl addFile {}

/-- The two components of the version sort key
`(x['videos'], x['videos'] / len(x['files']))` of line 75, as descending
lexicographic keys. -/
def versionKeys : List (Version → ℚ) :=
  [fun v => (v.videos : ℚ), fun v => (v.videos : ℚ) / (v.files.length : ℚ)]

/-- Line 75 computes `x['videos'] / len(x['files'])` for every version; a
grouping with zero reported files makes that key raise `ZeroDivisionError`.
This predicate is the "no key raises" condition. -/
def versionsDivisionOk (vs : List Version) : Bool :=
  vs.all (fun v => v.files.length != 0)

/-- Per-release enrichment (lines 52-86) for a kept release: build one
version per grouping (in report order), stable-sort them descending by
`(videos, videos/len(files))`, and if any version exists promote the first
version's data and set `cached = ['RD']`.  The `.error` value is the
release's state when the `ZeroDivisionError` escapes: versions appended, in
report order (CPython computes all sort keys before reordering and restores
the list when a key function raises), and nothing promoted. -/
def enrichRelease (resp : RDResponse) (r : Release) : Except Release Release :=
  let vs := ((rdLookup resp r.hash).getD []).map buildVersion
  if versionsDivisionOk vs then
    match List.insertionSort (RLex versionKeys) vs with
    | [] => .ok { r with versions := List.insertionSort (RLex versionKeys) vs }
    | first :: _ =>
        .ok { r with versions := List.insertionSort (RLex versionKeys) vs,
                     size := first.size, videos := first.videos,
                     seasons := first.seasons, episodes := first.episodes,
                     cached := ["RD"] }
  else .error { r with versions := vs }

/-- The `for release in releases` enrichment loop (lines 52-86) together
with the outer `try`/`except` (lines 92-94): an escaping exception abandons
the current and all later releases — they keep whatever state they had —
but the (already filtered) list is still the one the function returns.  The
boolean records whether the loop completed. -/
def checkLoop (resp : RDResponse) : List Release → List Release × Bool
  | [] => ([], true)
  | r :: rs =>
    match enrichRelease resp r with
    | .ok r' =>
        let p := checkLoop resp rs
        (r' :: p.1, p.2)
    | .error rbad => (rbad :: rs, false)

/-- Line 49: a release is kept iff its hash is in the response with an `rd`
key whose list is nonempty. -/
def rdKept (resp : RDResponse) (h : String) : Bool :=
  match rdLookup resp h with
  | some gs => !gs.isEmpty
  | none => false

/-- Lines 30-34: initialise `cached` and `versions` on every release. -/
def check_init (r : Release) : Release := { r with cached := [], versions := [] }

/-- `realdebrid.check` (lines 19-95).  `resp = none` models the external
call failing: after retries `session.get` returns `None`, `json.loads`
raises on it, and the outer `except` logs and returns the (initialised but
unenriched, unfiltered) list. -/
def rd_check (resp : Option RDResponse) (releases : List Release) : List Release :=
  let rs := releases.map check_init
  if rs.isEmpty then rs
  else
    match resp with
    | none => rs
    | some resp => (checkLoop resp (rs.filter (fun r => rdKept resp r.hash))).1

/-! ## `common.releases.type_filter` (src/modules/common.py lines 312-387) -/

/-- `len(seasons - set(x['seasons']))` where `seasons = set(s)`. -/
def missingSeasons (s : List ℕ) (covered : List ℕ) : ℕ :=
  (s.toFinset \ covered.toFinset).card

/-- Removal test of the multi-season branch (lines 348 and 352):
`len(seasons - set(x['seasons'])) > len(s) / 2 or x['episodes'] <= 1`,
where `len(s) / 2` is Python true division (a float). -/
def multiSeasonRemove (s : List ℕ) (covered : List ℕ) (ep : ℕ) : Prop :=
  (missingSeasons s covered : ℚ) > (s.length : ℚ) / 2 ∨ ep ≤ 1

instance (s covered : List ℕ) (ep : ℕ) : Decidable (multiSeasonRemove s covered ep) :=
  inferInstanceAs (Decidable (_ ∨ _))

/-- Removal test of the single-season, no-episode branch (lines 363, 367):
`seasons - set(x['seasons']) or x['episodes'] <= 1` (set truthiness:
nonempty difference). -/
def singleSeasonRemove (s : List ℕ) (covered : List ℕ) (ep : ℕ) : Prop :=
  missingSeasons s covered ≠ 0 ∨ ep ≤ 1

instance (s covered : List ℕ) (ep : ℕ) : Decidable (singleSeasonRemove s covered ep) :=
  inferInstanceAs (Decidable (_ ∨ _))

/-- Removal test of the single-season, specific-episode branch (lines 377,
381): `seasons - set(x['seasons']) or not x['episodes'] == 1`. -/
def episodeRemove (s : List ℕ) (covered : List ℕ) (ep : ℕ) : Prop :=
  missingSeasons s covered ≠ 0 ∨ ¬ ep = 1

instance (s covered : List ℕ) (ep : ℕ) : Decidable (episodeRemove s covered ep) :=
  inferInstanceAs (Decidable (_ ∨ _))

/-- `common.releases.type_filter`.  The source's iterate-over-a-copy /
remove-in-place loops act as pure filters (removal removes the first equal
element while iterating a copy, which equals `List.filter` also under
duplicates), and the kept releases additionally get their version lists
filtered by the same test and their `type` key set.  In the last branch the
source's `type`-assignment loop is nested inside the removal loop; its net
effect on the returned list is still to tag every survivor, since survivors
are present at each inner run and the inner loop runs whenever any release
is kept (and with no survivors there is nothing to tag). -/
def type_filter (l : List Release) (type : String) (s : List ℕ) (e : Option ℕ) :
    List Release :=
  if type = "movie" then
    (l.filter (fun r => !decide (r.videos = 0))).map
      (fun r => { r with
        versions := r.versions.filter (fun v => !decide (v.videos = 0)),
        rtype := "movie" })
  else if 1 < s.length then
    (l.filter (fun r => !decide (multiSeasonRemove s r.seasons r.episodes))).map
      (fun r => { r with
        versions := r.versions.filter
          (fun v => !decide (multiSeasonRemove s v.seasons v.episodes)),
        rtype := "show" })
  else if ¬ optTruthy e then
    (l.filter (fun r => !decide (singleSeasonRemove s r.seasons r.episodes))).map
      (fun r => { r with
        versions := r.versions.filter
          (fun v => !decide (singleSeasonRemove s v.seasons v.episodes)),
        rtype := "show" })
  else
    (l.filter (fun r => !decide (episodeRemove s r.seasons r.episodes))).map
      (fun r => { r with
        versions := r.versions.filter
          (fun v => !decide (episodeRemove s v.seasons v.episodes)),
        rtype := "show" })

/-! ## `common.releases.sort` (src/modules/common.py lines 389-412) -/

/-- `releases.sort(server, list)`.  `FILTERS` and `RULES` carry the values of
`eval` on the configured filter and rule expressions: each filter a Boolean
predicate of the release in scope, each rule a numeric (float, modelled ℚ)
sort key.  The default pass stable-sorts by `x['episodes']` descending; each
rule of `server.RULES` is then applied, in listed order, as one stable
descending sort. -/
def releases_sort (FILTERS : List (Release → Bool)) (RULES : List (Release → ℚ))
    (l : List Release) : List Release :=
  let l1 := FILTERS.foldl (fun acc f => acc.filter f) l
  let l2 := List.insertionSort (RK (fun x : Release => (x.episodes : ℚ))) l1
  RULES.foldl (fun acc rule => List.insertionSort (RK rule) acc) l2

/-! ## The search debounce of `main.handle_search` (src/main.py lines 291-307) -/

set_option linter.unusedVariables false in
/-- The supersession test of `handle_search`.  The handler runs
`last_search_term = copy.deepcopy(query)` under the lock and later
`if not query == last_search_term:` — but `last_search_term` is *not* in the
function's `global` statement (line 293 lists only `last_search_time`,
`releases` and `processing`), so the assignment creates a *function-local*
binding, the module-global `last_search_term` of line 128 is never updated,
and the later comparison reads the local.  The second argument is the value
a competing search would have recorded in the intended global register; the
source ignores it. -/
def handle_search_superseded (query globalTerm : String) : Bool :=
  let last_search_term := query
  !(query == last_search_term)

/-- The supersession test as the spec describes it (§4.5: "if the globally
recorded query no longer equals this caller's query, short-circuit to an
empty result").  Stated only to contrast with `handle_search_superseded`. -/
def spec_search_superseded (query globalTerm : String) : Bool :=
  !(query == globalTerm)

/-! ## The coalescer flag of `handle_availability` and `handle_search`
(src/main.py lines 205-230 and 313-331)

Both handlers share the shape

    with processing_lock:
        if not processing:
            processing = True
            ... pipeline: identify/search, scrape, check, type_filter ...
    local_releases = copy.deepcopy(releases)
    time.sleep(0.05)
    processing = False
    ... per-server sorting and response building ...

There is no `try`/`finally`: if the pipeline raises, the exception
propagates out of the handler (the framework answers 500) and the
`processing = False` line never runs.  The pipeline *can* raise — e.g.
after a failed cache fetch `realdebrid.check` swallows its own exception
and returns releases that never got their `videos`/`seasons`/`episodes`
keys, so `type_filter` raises `KeyError`; in `handle_search`,
`torrentio.search` raises `IndexError` when the metadata search returns no
entries.  The flow functions below take the flag's value at entry and the
pipeline's outcome and return how the call exits together with the flag's
value afterwards; the steps after `processing = False` cannot change the
flag again and are not modelled. -/

inductive PyExc
  | keyError
  | indexError
  | attributeError
deriving DecidableEq

inductive HandlerExit
  | completed
  | raised (e : PyExc)
deriving DecidableEq

/-- The flag behaviour of `handle_availability` (lines 205-230). -/
def handle_availability_flag (processing0 : Bool)
    (pipeline : Except PyExc (List Release)) : HandlerExit × Bool :=
  if processing0 = false then
    match pipeline with
    | .error e => (.raised e, true)
    | .ok _ => (.completed, false)
  else (.completed, false)

/-- The flag behaviour of `handle_search` (lines 313-331), identical in
shape. -/
def handle_search_flag (processing0 : Bool)
    (pipeline : Except PyExc (List Release)) : HandlerExit × Bool :=
  if processing0 = false then
    match pipeline with
    | .error e => (.raised e, true)
    | .ok _ => (.completed, false)
  else (.completed, false)

/-! ## The Selection Ledger (src/main.py `data_store`, written at lines
241-242 and 342-343, read by `handle_download`, lines 397-419) -/

/-- `data_store[unique_id] = local_releases`: dict assignment, modelled by
prepending (lookup takes the most recent binding). -/
def data_store_put (store : List (String × List Release)) (id : String)
    (rs : List Release) : List (String × List Release) :=
  (id, rs) :: store

/-- `data_store[id]` as a total lookup (the raising access is below). -/
def data_store_lookup (store : List (String × List Release)) (id : String) :
    Option (List Release) :=
  (store.find? (fun p => p.1 == id)).map Prod.snd

/-- How `handle_download` leaves the handler with respect to the ledger
access: `.got r` means the loop `for release in releases[int(num):]`
started at candidate `r` — the candidate of rank `num`; `.keyError` means
`data_store[id]` raised on an unknown handle (uncaught, an HTTP 500);
`.nameError` means the slice was empty so the loop body never ran and
`plex.library.refresh(release)` (line 416) hit the unbound local
`release` (uncaught `NameError`, an HTTP 500). -/
inductive DownloadAccess
  | got (r : Release)
  | keyError
  | nameError
deriving DecidableEq

/-- The ledger access of `handle_download` (lines 412-416). -/
def handle_download_access (store : List (String × List Release)) (id : String)
    (num : ℕ) : DownloadAccess :=
  match data_store_lookup store id with
  | none => .keyError
  | some rs =>
    match rs.drop num with
    | [] => .nameError
    | r :: _ => .got r

/-! ## Retry exhaustion (src/modules/common.py `session.request` lines
55-104; src/modules/torrentio.py `scrape`; src/modules/realdebrid.py
`check`) -/

/-- One attempt outcome of the underlying `super().request(...)`: a
`requests` exception, or a response with a status code. -/
inductive AttemptResult
  | excepted
  | resp (status : ℕ)

/-- The `while retries < self.MAX_RETRIES` loop of `session.request`, with
`fuel` iterations left and `attempts i` the outcome of the i-th underlying
request.  A response whose status is not in `RETRY_CODES` is returned; an
exception or retryable status consumes one retry; after the loop the
function **returns `None`** (line 104) — it does not raise. -/
def session_request_loop (retry_codes : List ℕ) (attempts : ℕ → AttemptResult) :
    ℕ → ℕ → Option ℕ
  | _, 0 => none
  | i, fuel + 1 =>
    match attempts i with
    | .excepted => session_request_loop retry_codes attempts (i + 1) fuel
    | .resp s =>
      if s ∈ retry_codes then session_request_loop retry_codes attempts (i + 1) fuel
      else some s

/-- `session.request` (the constructor default is `MAX_RETRIES = 3`). -/
def session_request (retry_codes : List ℕ) (max_retries : ℕ)
    (attempts : ℕ → AttemptResult) : Option ℕ :=
  session_request_loop retry_codes attempts 0 max_retries

/-- A raw torrentio stream entry (the fields the error-handling claims
need). -/
structure StreamEntry where
  title : String
  infoHash : String

/-- `torrentio.scrape` (lines 22-94) at the granularity the error-handling
claims need.  `fetched = none` models the stream fetch failing — after
exhausted retries the session returns `None`, `json.loads` raises on it,
and the outer `except` catches — or a response without a `'streams'` key;
either way the function returns the empty list *normally*.  On success each
entry is parsed by the per-entry body of lines 54-89 (`parseEntry`, a
parameter because it evaluates the *other* regexes of line 56-70), whose
failures skip just that entry (`except ... continue`).  The `Except` result
type records that no exception ever escapes: the result is always `.ok`. -/
def scrape (fetched : Option (List StreamEntry))
    (parseEntry : StreamEntry → Option Release) : Except PyExc (List Release) :=
  match fetched with
  | none => .ok []
  | some entries => .ok (entries.filterMap parseEntry)

/-! ## Theorems -/

theorem RLex_total : ∀ (ks : List (α → ℚ)) (a b : α), RLex ks a b ∨ RLex ks b a
  | [], _, _ => Or.inl trivial
  | k :: ks, a, b => by
      rcases lt_trichotomy (k a) (k b) with h | h | h
      · exact Or.inr (Or.inl h)
      · rcases RLex_total ks a b with h' | h'
        · exact Or.inl (Or.inr ⟨h, h'⟩)
        · exact Or.inr (Or.inr ⟨h.symm, h'⟩)
      · exact Or.inl (Or.inl h)

theorem RLex_trans : ∀ (ks : List (α → ℚ)) (a b c : α),
    RLex ks a b → RLex ks b c → RLex ks a c
  | [], _, _, _, _, _ => trivial
  | k :: ks, a, b, c, hab, hbc => by
      rcases hab with h1 | ⟨h1, h1'⟩ <;> rcases hbc with h2 | ⟨h2, h2'⟩
      · exact Or.inl (h2.trans h1)
      · exact Or.inl (h2 ▸ h1)
      · exact Or.inl (h1 ▸ h2)
      · exact Or.inr ⟨h1.trans h2, RLex_trans ks a b c h1' h2'⟩

theorem RLex_of_not (ks : List (α → ℚ)) (a b : α) (h : ¬ RLex ks a b) : RLex ks b a :=
  (RLex_total ks a b).resolve_left h

/-- Two decidable relations that agree propositionally produce the same
ordered insertions. -/
theorem orderedInsert_congr (r s : α → α → Prop) [DecidableRel r] [DecidableRel s]
    (h : ∀ a b, r a b ↔ s a b) (a : α) :
    ∀ l : List α, l.orderedInsert r a = l.orderedInsert s a
  | [] => rfl
  | b :: l => by
      simp only [List.orderedInsert]
      by_cases hr : r a b
      · rw [if_pos hr, if_pos ((h a b).mp hr)]
      · rw [if_neg hr, if_neg (fun hs => hr ((h a b).mpr hs)), orderedInsert_congr r s h a l]

/-- Two decidable relations that agree propositionally produce the same
insertion sorts. -/
theorem insertionSort_congr (r s : α → α → Prop) [DecidableRel r] [DecidableRel s]
    (h : ∀ a b, r a b ↔ s a b) :
    ∀ l : List α, List.insertionSort r l = List.insertionSort s l
  | [] => rfl
  | a :: l => by
      simp only [List.insertionSort]
      rw [insertionSort_congr r s h l, orderedInsert_congr r s h a]

/-- One descending key behaves like the singleton lexicographic key list. -/
theorem RK_iff_RLex_single (k : α → ℚ) (a b : α) : RK k a b ↔ RLex [k] a b := by
  unfold RK RLex
  constructor
  · intro h
    rcases lt_or_eq_of_le h with h' | h'
    · exact Or.inl h'
    · exact Or.inr ⟨h'.symm, trivial⟩
  · rintro (h | ⟨h, -⟩)
    · exact le_of_lt h
    · exact le_of_eq h.symm

/-- Inserting `a` behind one descending key `k` agrees with inserting it
behind the lexicographic keys `k :: ks` as long as `a` is `RLex ks`-above
every element of the target list (in that situation the extra tie-breaking
keys never get to overrule the insertion point). -/
theorem orderedInsert_RK_eq_RLex (k : α → ℚ) (ks : List (α → ℚ)) (a : α) :
    ∀ N : List α, (∀ c ∈ N, RLex ks a c) →
      List.orderedInsert (RK k) a N = List.orderedInsert (RLex (k :: ks)) a N
  | [], _ => rfl
  | c :: N', hN => by
      have hac : RLex ks a c := hN c (List.mem_cons_self _ _)
      have hiff : RK k a c ↔ RLex (k :: ks) a c := by
        unfold RK RLex
        constructor
        · intro h
          rcases lt_or_eq_of_le h with h' | h'
          · exact Or.inl h'
          · exact Or.inr ⟨h'.symm, hac⟩
        · rintro (h | ⟨h, -⟩)
          · exact le_of_lt h
          · exact le_of_eq h.symm
      simp only [List.orderedInsert]
      by_cases h : RK k a c
      · rw [if_pos h, if_pos (hiff.mp h)]
      · rw [if_neg h, if_neg (fun h' => h (hiff.mpr h')),
          orderedInsert_RK_eq_RLex k ks a N' (fun d hd => hN d (List.mem_cons_of_mem _ hd))]

/-- Inserting `b` behind the single key `k` commutes with inserting `a`
behind the lexicographic keys `k :: ks`, provided `a` is not `RLex ks`-above
`b` (so on a `k`-tie the two insertions agree that `b` goes first). -/
theorem orderedInsert_comm_RK_RLex (k : α → ℚ) (ks : List (α → ℚ)) (a b : α)
    (hab : ¬ RLex ks a b) :
    ∀ X : List α,
      List.orderedInsert (RK k) b (List.orderedInsert (RLex (k :: ks)) a X)
        = List.orderedInsert (RLex (k :: ks)) a (List.orderedInsert (RK k) b X)
  | [] => by
      simp only [List.orderedInsert]
      by_cases hba : RK k b a
      · have : ¬ RLex (k :: ks) a b := by
          unfold RLex
          rintro (h | ⟨h, h'⟩)
          · exact absurd hba (not_le.mpr h)
          · exact hab h'
        rw [if_pos hba, if_neg this]
      · have : RLex (k :: ks) a b := Or.inl (not_le.mp hba)
        rw [if_neg hba, if_pos this]
  | c :: X' => by
      by_cases t1 : RLex (k :: ks) a c <;> by_cases t2 : RK k b c
      · -- `a` goes before `c`, `b` goes before `c`
        by_cases hba : RK k b a
        · have hnab : ¬ RLex (k :: ks) a b := by
            rintro (h | ⟨h, h'⟩)
            · exact absurd hba (not_le.mpr h)
            · exact hab h'
          simp only [List.orderedInsert, if_pos t1, if_pos t2, if_pos hba, if_neg hnab]
        · have hab' : RLex (k :: ks) a b := Or.inl (not_le.mp hba)
          simp only [List.orderedInsert, if_pos t1, if_pos t2, if_neg hba, if_pos hab']
      · -- `a` goes before `c`, `b` goes after `c`: then `k b < k c ≤ k a`
        have hca : k c ≤ k a := by
          rcases t1 with h | ⟨h, -⟩
          · exact le_of_lt h
          · exact le_of_eq h.symm
        have hba : ¬ RK k b a := by
          unfold RK
          unfold RK at t2
          intro h
          exact t2 (le_trans hca h)
        simp only [List.orderedInsert, if_pos t1, if_neg t2, if_neg hba]
      · -- `a` goes after `c`, `b` goes before `c`: then `k a ≤ k c ≤ k b`
        have hac : k a ≤ k c := by
          by_contra h
          exact t1 (Or.inl (not_le.mp h))
        have hba : RK k b a := le_trans hac t2
        have hnab : ¬ RLex (k :: ks) a b := by
          rintro (h | ⟨h, h'⟩)
          · exact absurd hba (not_le.mpr h)
          · exact hab h'
        simp only [List.orderedInsert, if_neg t1, if_pos t2, if_pos hba, if_neg hnab]
      · -- both go after `c`: recurse
        simp only [List.orderedInsert, if_neg t1, if_neg t2]
        rw [orderedInsert_comm_RK_RLex k ks a b hab X']

/-- Re-sorting by a single key `k` after inserting `a` into an
`RLex ks`-sorted list is the same as sorting first and then inserting `a`
behind the combined keys `k :: ks`. -/
theorem insertionSort_orderedInsert_swap (k : α → ℚ) (ks : List (α → ℚ)) (a : α) :
    ∀ M : List α, M.Pairwise (RLex ks) →
      List.insertionSort (RK k) (List.orderedInsert (RLex ks) a M)
        = List.orderedInsert (RLex (k :: ks)) a (List.insertionSort (RK k) M)
  | [], _ => rfl
  | b :: M', hM => by
      have hb : ∀ c ∈ M', RLex ks b c := (List.pairwise_cons.mp hM).1
      have hM' : M'.Pairwise (RLex ks) := (List.pairwise_cons.mp hM).2
      by_cases hab : RLex ks a b
      · have hall : ∀ c ∈ List.insertionSort (RK k) (b :: M'), RLex ks a c := by
          intro c hc
          rcases List.mem_cons.mp ((List.mem_insertionSort (RK k)).mp hc) with rfl | hc'
          · exact hab
          · exact RLex_trans ks a b c hab (hb c hc')
        rw [show List.orderedInsert (RLex ks) a (b :: M') = a :: b :: M' from
            if_pos hab]
        show List.orderedInsert (RK k) a (List.insertionSort (RK k) (b :: M')) = _
        exact orderedInsert_RK_eq_RLex k ks a _ hall
      · rw [show List.orderedInsert (RLex ks) a (b :: M')
            = b :: List.orderedInsert (RLex ks) a M' from if_neg hab]
        show List.orderedInsert (RK k) b
            (List.insertionSort (RK k) (List.orderedInsert (RLex ks) a M')) = _
        rw [insertionSort_orderedInsert_swap k ks a M' hM',
          orderedInsert_comm_RK_RLex k ks a b hab]
        rfl

/-- A stable descending one-key pass over the result of a stable
lexicographic sort is the stable lexicographic sort with the new key
prepended as the most significant one. -/
theorem insertionSort_RK_RLex (k : α → ℚ) (ks : List (α → ℚ)) :
    ∀ l : List α,
      List.insertionSort (RK k) (List.insertionSort (RLex ks) l)
        = List.insertionSort (RLex (k :: ks)) l
  | [] => rfl
  | a :: l' => by
      haveI : IsTotal α (RLex ks) := ⟨RLex_total ks⟩
      haveI : IsTrans α (RLex ks) := ⟨RLex_trans ks⟩
      show List.insertionSort (RK k)
          (List.orderedInsert (RLex ks) a (List.insertionSort (RLex ks) l')) = _
      rw [insertionSort_orderedInsert_swap k ks a _
          (List.sorted_insertionSort (RLex ks) l'),
        insertionSort_RK_RLex k ks l']
      rfl

theorem firstMax_eq_none (r : α → α → Prop) [DecidableRel r] :
    ∀ {l : List α}, firstMax r l = none → l = []
  | [], _ => rfl
  | _ :: _, h => by simp [firstMax] at h

/-- The head of a stable sort is `firstMax`. -/
theorem insertionSort_head? (r : α → α → Prop) [DecidableRel r] :
    ∀ l : List α, (List.insertionSort r l).head? = firstMax r l
  | [] => rfl
  | a :: l => by
      show (List.orderedInsert r a (List.insertionSort r l)).head? = _
      rcases hE : List.insertionSort r l with _ | ⟨h, t⟩
      · have hN : firstMax r l = none := by rw [← insertionSort_head? r l, hE]; rfl
        rw [firstMax, hN]
        rfl
      · have hS : firstMax r l = some h := by rw [← insertionSort_head? r l, hE]; rfl
        rw [firstMax, hS]
        show _ = some (if r a h then a else h)
        by_cases hr : r a h
        · rw [if_pos hr, show List.orderedInsert r a (h :: t) = a :: h :: t from if_pos hr]
          rfl
        · rw [if_neg hr, show List.orderedInsert r a (h :: t) = h :: List.orderedInsert r a t from
            if_neg hr]
          rfl

/-- `firstMax` really is the first maximum: the list splits as
`pre ++ p :: suf` where nothing in `pre` is `r`-above `p` and `p` is
`r`-above everything. -/
theorem firstMax_spec (r : α → α → Prop) [DecidableRel r]
    (htot : ∀ a b, r a b ∨ r b a) (htrans : ∀ a b c, r a b → r b c → r a c) :
    ∀ (l : List α) (p : α), firstMax r l = some p →
      ∃ pre suf, l = pre ++ p :: suf ∧ (∀ u ∈ pre, ¬ r u p) ∧ ∀ v ∈ l, r p v
  | [], p, hp => by simp [firstMax] at hp
  | a :: l, p, hp => by
      rcases hF : firstMax r l with _ | m
      · have hl : l = [] := firstMax_eq_none r hF
        subst hl
        rw [firstMax] at hp
        simp only [Option.elim_none, Option.some.injEq] at hp
        subst hp
        exact ⟨[], [], rfl, by simp, by
          intro v hv
          rcases List.mem_singleton.mp hv with rfl
          exact (htot v v).elim id id⟩
      · rw [firstMax, hF] at hp
        simp only [Option.elim_some, Option.some.injEq] at hp
        obtain ⟨pre', suf', hsplit, hpre', hall'⟩ := firstMax_spec r htot htrans l m hF
        by_cases ham : r a m
        · rw [if_pos ham] at hp
          subst hp
          refine ⟨[], l, rfl, by simp, ?_⟩
          intro v hv
          rcases List.mem_cons.mp hv with rfl | hv'
          · exact (htot v v).elim id id
          · exact htrans a m v ham (hall' v hv')
        · rw [if_neg ham] at hp
          subst hp
          refine ⟨a :: pre', suf', by rw [hsplit]; rfl, ?_, ?_⟩
          · intro u hu
            rcases List.mem_cons.mp hu with rfl | hu'
            · exact ham
            · exact hpre' u hu'
          · intro v hv
            rcases List.mem_cons.mp hv with rfl | hv'
            · exact (htot v m).resolve_left ham
            · exact hall' v hv'

/-- Folding a sequence of stable one-key passes over an
`RLex ks`-sorted starting point yields one stable lexicographic sort, with
the *later* rules as the *more significant* keys. -/
theorem foldl_insertionSort_rules :
    ∀ (R : List (α → ℚ)) (ks : List (α → ℚ)) (l : List α),
      R.foldl (fun acc k => List.insertionSort (RK k) acc) (List.insertionSort (RLex ks) l)
        = List.insertionSort (RLex (R.reverse ++ ks)) l
  | [], ks, l => by simp
  | k :: R', ks, l => by
      show R'.foldl _ (List.insertionSort (RK k) (List.insertionSort (RLex ks) l)) = _
      rw [insertionSort_RK_RLex, foldl_insertionSort_rules R' (k :: ks) l]
      congr 2
      simp

/-! ### Lemmas about the size scanner -/

theorem takeWhile_digits_append :
    ∀ (d rest : List Char), (∀ c ∈ d, Char.isDigit c) →
      (∀ c, rest.head? = some c → ¬ (Char.isDigit c = true)) →
      (d ++ rest).takeWhile Char.isDigit = d ∧ (d ++ rest).dropWhile Char.isDigit = rest
  | [], rest, _, h0 => by
      cases rest with
      | nil => simp
      | cons x r =>
          have hx : ¬ (Char.isDigit x = true) := h0 x rfl
          simp [List.takeWhile_cons, List.dropWhile_cons, hx]
  | c :: d', rest, hd, h0 => by
      have hc : Char.isDigit c = true := hd c (List.mem_cons_self _ _)
      have ih := takeWhile_digits_append d' rest (fun x hx => hd x (List.mem_cons_of_mem _ hx)) h0
      simp [List.takeWhile_cons, List.dropWhile_cons, hc, ih.1, ih.2]

theorem lookUnit_self (u : Char) (rest : List Char) :
    lookUnit u (' ' :: u :: 'B' :: rest) = true := by
  simp [lookUnit]

theorem lookUnit_not_space (u a : Char) (l : List Char) (ha : ¬ a = ' ') :
    lookUnit u (a :: l) = false := by
  cases l with
  | nil => rfl
  | cons c l' =>
      cases l' with
      | nil => rfl
      | cons b t => simp [lookUnit, ha]

theorem lookUnit_unit_ne (u v : Char) (l : List Char) (hv : ¬ v = u) :
    lookUnit u (' ' :: v :: 'B' :: l) = false := by
  simp [lookUnit, hv]

theorem sizeNumAt_digits (u : Char) (n rest : List Char)
    (hn : ∀ c ∈ n, Char.isDigit c) (h2 : 2 ≤ n.length) :
    sizeNumAt u (n ++ ' ' :: u :: 'B' :: rest) = some n := by
  have hT := takeWhile_digits_append n (' ' :: u :: 'B' :: rest) hn
    (by intro c hc; simp only [List.head?_cons, Option.some.injEq] at hc; subst hc; decide)
  have hne : n.isEmpty = false := by
    cases n with
    | nil => simp at h2
    | cons _ _ => rfl
  simp only [sizeNumAt, hT.1, hT.2, hne, Bool.false_eq_true, if_false]
  rw [if_pos ⟨h2, lookUnit_self u rest⟩]

theorem sizeNumAt_dot (u : Char) (d1 d2 rest : List Char)
    (h1 : d1 ≠ []) (hd1 : ∀ c ∈ d1, Char.isDigit c)
    (h2 : d2 ≠ []) (hd2 : ∀ c ∈ d2, Char.isDigit c) :
    sizeNumAt u (d1 ++ '.' :: (d2 ++ ' ' :: u :: 'B' :: rest)) = some (d1 ++ '.' :: d2) := by
  have hT := takeWhile_digits_append d1 ('.' :: (d2 ++ ' ' :: u :: 'B' :: rest)) hd1
    (by intro c hc; simp only [List.head?_cons, Option.some.injEq] at hc; subst hc; decide)
  have hT2 := takeWhile_digits_append d2 (' ' :: u :: 'B' :: rest) hd2
    (by intro c hc; simp only [List.head?_cons, Option.some.injEq] at hc; subst hc; decide)
  have hne : d1.isEmpty = false := by cases d1 with | nil => exact absurd rfl h1 | cons _ _ => rfl
  have hne2 : d2.isEmpty = false := by
    cases d2 with | nil => exact absurd rfl h2 | cons _ _ => rfl
  have hlook : lookUnit u ('.' :: (d2 ++ ' ' :: u :: 'B' :: rest)) = false :=
    lookUnit_not_space u '.' _ (by decide)
  simp only [sizeNumAt, hT.1, hT.2, hne, Bool.false_eq_true, if_false, hlook]
  rw [if_neg (by rintro ⟨-, h⟩; exact absurd h (by simp))]
  rw [if_neg (by decide : ¬ ('.' = '\n'))]
  simp only [hT2.1, hT2.2]
  rw [if_pos ⟨by simp [hne2], lookUnit_self u rest⟩]

/-- With the wrong unit letter after the number, the match at this position
fails (used to show the `GB` search fails on an `MB` title). -/
theorem sizeNumAt_digits_unit_ne (u v : Char) (n rest : List Char)
    (hn : ∀ c ∈ n, Char.isDigit c) (hv : ¬ v = u) (hvd : ¬ Char.isDigit v = true) :
    sizeNumAt u (n ++ ' ' :: v :: 'B' :: rest) = none := by
  have hT := takeWhile_digits_append n (' ' :: v :: 'B' :: rest) hn
    (by intro c hc; simp only [List.head?_cons, Option.some.injEq] at hc; subst hc; decide)
  cases hE : n.isEmpty with
  | true =>
      simp only [sizeNumAt, hT.1, hT.2, hE, if_true]
  | false =>
      have hlook : lookUnit u (' ' :: v :: 'B' :: rest) = false := lookUnit_unit_ne u v rest hv
      simp only [sizeNumAt, hT.1, hT.2, hE, Bool.false_eq_true, if_false, hlook]
      rw [if_neg (by rintro ⟨-, h⟩; exact absurd h (by simp))]
      rw [if_neg (by decide : ¬ (' ' = '\n'))]
      have : (v :: 'B' :: rest).takeWhile Char.isDigit = [] := by
        simp [List.takeWhile_cons, hvd]
      simp only [this]
      rw [if_neg (by rintro ⟨h, -⟩; exact h rfl)]

theorem sizeNumAt_dot_unit_ne (u v : Char) (d1 d2 rest : List Char)
    (h1 : d1 ≠ []) (hd1 : ∀ c ∈ d1, Char.isDigit c)
    (hd2 : ∀ c ∈ d2, Char.isDigit c) (hv : ¬ v = u) :
    sizeNumAt u (d1 ++ '.' :: (d2 ++ ' ' :: v :: 'B' :: rest)) = none := by
  have hT := takeWhile_digits_append d1 ('.' :: (d2 ++ ' ' :: v :: 'B' :: rest)) hd1
    (by intro c hc; simp only [List.head?_cons, Option.some.injEq] at hc; subst hc; decide)
  have hT2 := takeWhile_digits_append d2 (' ' :: v :: 'B' :: rest) hd2
    (by intro c hc; simp only [List.head?_cons, Option.some.injEq] at hc; subst hc; decide)
  have hne : d1.isEmpty = false := by cases d1 with | nil => exact absurd rfl h1 | cons _ _ => rfl
  have hlook : lookUnit u ('.' :: (d2 ++ ' ' :: v :: 'B' :: rest)) = false :=
    lookUnit_not_space u '.' _ (by decide)
  simp only [sizeNumAt, hT.1, hT.2, hne, Bool.false_eq_true, if_false, hlook]
  rw [if_neg (by rintro ⟨-, h⟩; exact absurd h (by simp))]
  rw [if_neg (by decide : ¬ ('.' = '\n'))]
  simp only [hT2.1, hT2.2]
  rw [if_neg (by rintro ⟨-, h⟩; exact absurd h (by simp [lookUnit_unit_ne u v rest hv]))]

theorem sizeSearch_of_no_marker (u : Char) :
    ∀ l : List Char, '💾' ∉ l → sizeSearch u l = none
  | [], _ => rfl
  | [_], _ => rfl
  | a :: b :: rest, h => by
      rw [sizeSearch]
      rw [if_neg (by
        rintro ⟨rfl, -⟩
        exact h (List.mem_cons_self _ _))]
      exact sizeSearch_of_no_marker u (b :: rest) (fun hc => h (List.mem_cons_of_mem _ hc))

theorem sizeSearch_append_of_no_marker (u : Char) :
    ∀ (pre l : List Char), '💾' ∉ pre → sizeSearch u (pre ++ l) = sizeSearch u l
  | [], _, _ => rfl
  | a :: pre', l, h => by
      have ha : ¬ a = '💾' := fun hc => h (hc ▸ List.mem_cons_self _ _)
      have h' : '💾' ∉ pre' := fun hc => h (List.mem_cons_of_mem _ hc)
      cases hPL : pre' ++ l with
      | nil =>
          have hl : l = [] := (List.append_eq_nil.mp hPL).2
          subst hl
          have hp : pre' = [] := by simpa using hPL
          subst hp
          rfl
      | cons b rest =>
          show sizeSearch u (a :: pre' ++ l) = sizeSearch u l
          rw [List.cons_append, hPL, sizeSearch,
            if_neg (by rintro ⟨rfl, -⟩; exact ha rfl), ← hPL,
            sizeSearch_append_of_no_marker u pre' l h']

theorem sizeSearch_marker (u : Char) (rest : List Char) :
    sizeSearch u ('💾' :: ' ' :: rest)
      = match sizeNumAt u rest with
        | some m => some m
        | none => sizeSearch u (' ' :: rest) := by
  rw [sizeSearch, if_pos ⟨rfl, rfl⟩]

theorem pyFloatOfMatch_digits (n : List Char) (hn : ∀ c ∈ n, Char.isDigit c) :
    pyFloatOfMatch n = some (digitsVal n : ℚ) := by
  have hT := takeWhile_digits_append n [] hn (by intro c hc; simp at hc)
  rw [List.append_nil] at hT
  rw [pyFloatOfMatch]
  simp only [hT.1, hT.2]

theorem pyFloatOfMatch_dot (d1 d2 : List Char)
    (hd1 : ∀ c ∈ d1, Char.isDigit c) :
    pyFloatOfMatch (d1 ++ '.' :: d2)
      = some ((digitsVal d1 : ℚ) + (digitsVal d2 : ℚ) / (10 : ℚ) ^ d2.length) := by
  have hT := takeWhile_digits_append d1 ('.' :: d2) hd1
    (by intro c hc; simp only [List.head?_cons, Option.some.injEq] at hc; subst hc; decide)
  rw [pyFloatOfMatch]
  simp only [hT.1, hT.2]
  simp

theorem GoodNum_no_marker {n : List Char} (h : GoodNum n) : '💾' ∉ n := by
  rcases h with ⟨-, hd⟩ | ⟨d1, d2, rfl, -, -, hd1, hd2⟩
  · intro hc
    exact absurd (hd _ hc) (by decide)
  · intro hc
    rcases List.mem_append.mp hc with hc | hc
    · exact absurd (hd1 _ hc) (by decide)
    · rcases List.mem_cons.mp hc with hc | hc
      · exact absurd hc (by decide)
      · exact absurd (hd2 _ hc) (by decide)

theorem sizeNumAt_goodNum (u : Char) (n rest : List Char) (h : GoodNum n) :
    sizeNumAt u (n ++ ' ' :: u :: 'B' :: rest) = some n := by
  rcases h with ⟨h2, hd⟩ | ⟨d1, d2, rfl, h1, h2, hd1, hd2⟩
  · exact sizeNumAt_digits u n rest hd h2
  · rw [List.append_assoc, List.cons_append]
    exact sizeNumAt_dot u d1 d2 rest h1 hd1 h2 hd2

theorem sizeNumAt_goodNum_unit_ne (u v : Char) (n rest : List Char) (h : GoodNum n)
    (hv : ¬ v = u) (hvd : ¬ Char.isDigit v = true) :
    sizeNumAt u (n ++ ' ' :: v :: 'B' :: rest) = none := by
  rcases h with ⟨-, hd⟩ | ⟨d1, d2, rfl, h1, -, hd1, hd2⟩
  · exact sizeNumAt_digits_unit_ne u v n rest hd hv hvd
  · rw [List.append_assoc, List.cons_append]
    exact sizeNumAt_dot_unit_ne u v d1 d2 rest h1 hd1 hd2 hv

/-- C7, corrected (see `C7_counterexample` for why the original claim fails):
for a title containing the `💾` marker followed by a *matchable* number
(`GoodNum`: at least two digits, or digits-dot-digits) and the unit `GB`, the
parsed `sizeGB` is that number; with unit `MB` it is the number divided by
1000; and a title with no `💾` marker at all parses to 0.  The `pre`/`rest`
hypotheses keep other positions of the title from producing an earlier
match. -/
theorem C7_size_rules_amended :
    (∀ (pre n rest : List Char) (q : ℚ), '💾' ∉ pre → GoodNum n →
      pyFloatOfMatch n = some q →
      torrentio_size (pre ++ '💾' :: ' ' :: (n ++ ' ' :: 'G' :: 'B' :: rest)) = some q)
    ∧ (∀ (pre n rest : List Char) (q : ℚ), '💾' ∉ pre → '💾' ∉ rest → GoodNum n →
      pyFloatOfMatch n = some q →
      torrentio_size (pre ++ '💾' :: ' ' :: (n ++ ' ' :: 'M' :: 'B' :: rest)) = some (q / 1000))
    ∧ (∀ t : List Char, '💾' ∉ t → torrentio_size t = some 0) := by
  refine ⟨?_, ?_, ?_⟩
  · intro pre n rest q hpre hn hq
    rw [torrentio_size, sizeSearch_append_of_no_marker 'G' pre _ hpre, sizeSearch_marker,
      sizeNumAt_goodNum 'G' n rest hn]
    exact hq
  · intro pre n rest q hpre hrest hn hq
    have hX : '💾' ∉ (' ' :: (n ++ ' ' :: 'M' :: 'B' :: rest)) := by
      intro hc
      rcases List.mem_cons.mp hc with hc | hc
      · exact absurd hc (by decide)
      rcases List.mem_append.mp hc with hc | hc
      · exact GoodNum_no_marker hn hc
      · rcases List.mem_cons.mp hc with hc | hc
        · exact absurd hc (by decide)
        rcases List.mem_cons.mp hc with hc | hc
        · exact absurd hc (by decide)
        rcases List.mem_cons.mp hc with hc | hc
        · exact absurd hc (by decide)
        · exact hrest hc
    rw [torrentio_size, sizeSearch_append_of_no_marker 'G' pre _ hpre, sizeSearch_marker,
      sizeNumAt_goodNum_unit_ne 'G' 'M' n rest hn (by decide) (by decide),
      sizeSearch_of_no_marker 'G' _ hX,
      sizeSearch_append_of_no_marker 'M' pre _ hpre, sizeSearch_marker,
      sizeNumAt_goodNum 'M' n rest hn]
    show Option.map (fun x => x / 1000) (pyFloatOfMatch n) = some (q / 1000)
    rw [hq]
    rfl
  · intro t ht
    rw [torrentio_size, sizeSearch_of_no_marker 'G' t ht, sizeSearch_of_no_marker 'M' t ht]

/-- C7, counterexample to the original claim: the title `"💾 5 GB"` contains
the marker followed by the decimal number 5 and the unit `GB`, yet the
parsed size is 0, not 5 — the group `([0-9]+.?[0-9]+)` cannot match a single
digit. -/
theorem C7_counterexample :
    torrentio_size ('💾' :: ' ' :: '5' :: ' ' :: 'G' :: 'B' :: []) = some 0 ∧
      torrentio_size ('💾' :: ' ' :: '5' :: ' ' :: 'G' :: 'B' :: []) ≠ some 5 := by
  constructor
  · decide
  · decide

/-- Witness for `C7_size_rules_amended`, at the spec's own examples:
`"💾 1.5 GB"` parses to 1.5 and `"💾 500 MB"` parses to 0.5. -/
theorem C7_size_rules_amended_witness :
    torrentio_size ([] ++ '💾' :: ' ' :: (['1', '.', '5'] ++ ' ' :: 'G' :: 'B' :: [])) = some (3 / 2)
    ∧ torrentio_size ([] ++ '💾' :: ' ' :: (['5', '0', '0'] ++ ' ' :: 'M' :: 'B' :: []))
        = some (500 / 1000)
    ∧ torrentio_size ('n' :: 'o' :: []) = some 0 := by
  refine ⟨?_, ?_, ?_⟩
  · have hval : pyFloatOfMatch ['1', '.', '5'] = some (3 / 2) := by
      have h := pyFloatOfMatch_dot ['1'] ['5'] (by decide)
      rw [show digitsVal ['1'] = 1 from by decide, show digitsVal ['5'] = 5 from by decide,
        show (['1'] ++ '.' :: ['5'] : List Char) = ['1', '.', '5'] from rfl] at h
      rw [h]
      congr 1
      norm_num
    exact C7_size_rules_amended.1 [] ['1', '.', '5'] [] (3 / 2) (by simp)
      (Or.inr ⟨['1'], ['5'], rfl, by simp, by simp, by decide, by decide⟩) hval
  · have hval : pyFloatOfMatch ['5', '0', '0'] = some 500 := by
      have h := pyFloatOfMatch_digits ['5', '0', '0'] (by decide)
      rw [show digitsVal ['5', '0', '0'] = 500 from by decide] at h
      exact h
    exact C7_size_rules_amended.2.1 [] ['5', '0', '0'] [] 500 (by simp) (by simp)
      (Or.inl ⟨by decide, by decide⟩) hval
  · exact C7_size_rules_amended.2.2 _ (by decide)

/-! ### Lemmas about `realdebrid.check` -/

theorem mkFileEntry_size (fi : RDFile) :
    (mkFileEntry fi).size = (fi.filesize : ℚ) / 2 ^ 33 := by
  show (fi.filesize : ℚ) / ((8 : ℚ) * 1024 * 1024 * 1024) = _
  norm_num

theorem foldl_addFile_files_length :
    ∀ (g : RDGroup) (v : Version), (g.foldl addFile v).files.length = v.files.length + g.length
  | [], v => by simp
  | fi :: g, v => by
      rw [List.foldl_cons, foldl_addFile_files_length g]
      show (v.files ++ [mkFileEntry fi]).length + g.length = _
      rw [List.length_append]
      simp
      omega

theorem buildVersion_files_length (g : RDGroup) : (buildVersion g).files.length = g.length := by
  rw [buildVersion, foldl_addFile_files_length]
  simp

theorem foldl_addFile_size :
    ∀ (g : RDGroup) (v : Version),
      (g.foldl addFile v).size = v.size + ((g.map fun fi => (fi.filesize : ℚ)).sum) / 2 ^ 33
  | [], v => by simp
  | fi :: g, v => by
      rw [List.foldl_cons, foldl_addFile_size g]
      show (addFile v fi).size + _ = _
      rw [show (addFile v fi).size = v.size + (mkFileEntry fi).size from rfl, mkFileEntry_size,
        List.map_cons, List.sum_cons, add_div]
      ring

theorem buildVersion_size (g : RDGroup) :
    (buildVersion g).size = ((g.map fun fi => (fi.filesize : ℚ)).sum) / 2 ^ 33 := by
  rw [buildVersion, foldl_addFile_size]
  show (0 : ℚ) + _ = _
  rw [zero_add]

theorem versionsDivisionOk_of (gs : List RDGroup) (h : ∀ g ∈ gs, g ≠ []) :
    versionsDivisionOk (gs.map buildVersion) = true := by
  rw [versionsDivisionOk, List.all_eq_true]
  intro v hv
  rcases List.mem_map.mp hv with ⟨g, hg, rfl⟩
  rw [bne_iff_ne, ne_eq, buildVersion_files_length]
  exact fun hlen => h g hg (List.length_eq_zero.mp hlen)

theorem versionsDivisionOk_false (vs : List Version) (h : ∃ v ∈ vs, v.files.length = 0) :
    versionsDivisionOk vs = false := by
  rcases h with ⟨v, hv, hlen⟩
  rw [versionsDivisionOk, List.all_eq_false]
  exact ⟨v, hv, by simp [hlen]⟩

/-- The ordering the version sort key `(videos, videos/len(files))` induces,
spelled out: `a` may precede `b` iff `a` has more videos, or equally many
and at least as large a videos-to-files ratio. -/
theorem RLex_versionKeys_iff (a b : Version) :
    RLex versionKeys a b ↔
      ((b.videos : ℚ) < a.videos ∨
        ((a.videos : ℚ) = b.videos ∧
          (b.videos : ℚ) / b.files.length ≤ (a.videos : ℚ) / a.files.length)) := by
  show ((b.videos : ℚ) < a.videos ∨ ((a.videos : ℚ) = (b.videos : ℚ) ∧
      ((b.videos : ℚ) / b.files.length < (a.videos : ℚ) / a.files.length ∨
        ((a.videos : ℚ) / a.files.length = (b.videos : ℚ) / b.files.length ∧ True)))) ↔ _
  constructor
  · rintro (h | ⟨h1, h2 | ⟨h2, -⟩⟩)
    · exact Or.inl h
    · exact Or.inr ⟨h1, le_of_lt h2⟩
    · exact Or.inr ⟨h1, le_of_eq h2.symm⟩
  · rintro (h | ⟨h1, h2⟩)
    · exact Or.inl h
    · rcases lt_or_eq_of_le h2 with h2' | h2'
      · exact Or.inr ⟨h1, Or.inl h2'⟩
      · exact Or.inr ⟨h1, Or.inr ⟨h2'.symm, trivial⟩⟩

/-- Successful enrichment of one kept release: the characterisation of
`realdebrid.check` lines 52-86 when every reported grouping is nonempty. -/
theorem enrichRelease_ok_spec (resp : RDResponse) (r : Release) (gs : List RDGroup)
    (hlook : rdLookup resp r.hash = some gs) (hne : gs ≠ []) (hfiles : ∀ g ∈ gs, g ≠ []) :
    ∃ p, firstMax (RLex versionKeys) (gs.map buildVersion) = some p
      ∧ p ∈ gs.map buildVersion
      ∧ enrichRelease resp r = .ok { r with
          versions := List.insertionSort (RLex versionKeys) (gs.map buildVersion),
          size := p.size, videos := p.videos, seasons := p.seasons,
          episodes := p.episodes, cached := ["RD"] } := by
  have hvne : gs.map buildVersion ≠ [] := fun hc => hne (List.map_eq_nil_iff.mp hc)
  rcases hS : List.insertionSort (RLex versionKeys) (gs.map buildVersion) with _ | ⟨first, t⟩
  · exfalso
    have h1 := List.length_insertionSort (RLex versionKeys) (gs.map buildVersion)
    rw [hS] at h1
    exact hvne (List.length_eq_zero.mp h1.symm)
  · have hhead : firstMax (RLex versionKeys) (gs.map buildVersion) = some first := by
      rw [← insertionSort_head? (RLex versionKeys) (gs.map buildVersion), hS]
      rfl
    refine ⟨first, hhead, ?_, ?_⟩
    · have hmem : first ∈ List.insertionSort (RLex versionKeys) (gs.map buildVersion) := by
        rw [hS]
        exact List.mem_cons_self _ _
      exact (List.mem_insertionSort (RLex versionKeys)).mp hmem
    · show (if versionsDivisionOk (((rdLookup resp r.hash).getD []).map buildVersion) then _
        else _) = _
      rw [hlook]
      simp only [Option.getD_some]
      rw [if_pos (versionsDivisionOk_of gs hfiles), hS]

/-- Failing enrichment: a grouping with zero reported files makes the
version-sort key raise `ZeroDivisionError`; the release keeps its appended,
unsorted versions and gets no promotion. -/
theorem enrichRelease_error_spec (resp : RDResponse) (r : Release) (gs : List RDGroup)
    (hlook : rdLookup resp r.hash = some gs) (hbad : ∃ g ∈ gs, g = []) :
    enrichRelease resp r = .error { r with versions := gs.map buildVersion } := by
  have hdiv : versionsDivisionOk (gs.map buildVersion) = false := by
    rcases hbad with ⟨g, hg, rfl⟩
    exact versionsDivisionOk_false _
      ⟨buildVersion [], List.mem_map_of_mem _ hg, rfl⟩
  show (if versionsDivisionOk (((rdLookup resp r.hash).getD []).map buildVersion) then _
      else _) = _
  rw [hlook]
  show (if versionsDivisionOk (gs.map buildVersion) then _ else _) = _
  rw [hdiv]
  simp

/-- One escaping exception inside the enrichment loop abandons the current
and all later releases, returning the partially enriched list. -/
theorem checkLoop_abandons (resp : RDResponse) :
    ∀ (pre : List Release) (r0 : Release) (post : List Release) (rbad : Release),
      (∀ r ∈ pre, ∃ r', enrichRelease resp r = .ok r') →
      enrichRelease resp r0 = .error rbad →
      checkLoop resp (pre ++ r0 :: post)
        = (pre.map (fun r => ((enrichRelease resp r).toOption).getD r) ++ rbad :: post, false)
  | [], r0, post, rbad, _, herr => by
      simp only [List.nil_append, List.map_nil, checkLoop, herr]
  | r :: pre, r0, post, rbad, hpre, herr => by
      rcases hpre r (List.mem_cons_self _ _) with ⟨r', hr'⟩
      have ih := checkLoop_abandons resp pre r0 post rbad
        (fun x hx => hpre x (List.mem_cons_of_mem _ hx)) herr
      simp only [List.cons_append, checkLoop, hr', List.map_cons, List.append_eq, ih,
        Except.toOption, Option.getD_some]

/-- C5: for a Candidate kept by the Cache-Availability Matcher whose hash has
at least one reported grouping (all with at least one file — a zero-file
grouping instead raises, see the companion theorem about non-totality): the
Version placed first is the first maximum by (videoCount descending, then
videoCount/fileCount ratio descending) — every version is below it in that
order and everything *before* it in report order is strictly below it, i.e.
ties are broken by original report order — and exactly its size, videos,
seasons and episodes are promoted onto the release together with
`cached = ["RD"]`. -/
theorem C5_primary_version_selection (resp : RDResponse) (r : Release) (gs : List RDGroup)
    (hlook : rdLookup resp r.hash = some gs) (hne : gs ≠ []) (hfiles : ∀ g ∈ gs, g ≠ []) :
    ∃ (p : Version) (pre suf : List Version),
      enrichRelease resp r = .ok { r with
          versions := List.insertionSort (RLex versionKeys) (gs.map buildVersion),
          size := p.size, videos := p.videos, seasons := p.seasons,
          episodes := p.episodes, cached := ["RD"] }
      ∧ (List.insertionSort (RLex versionKeys) (gs.map buildVersion)).head? = some p
      ∧ gs.map buildVersion = pre ++ p :: suf
      ∧ (∀ v ∈ gs.map buildVersion,
          (v.videos : ℚ) < p.videos ∨
            ((p.videos : ℚ) = v.videos ∧
              (v.videos : ℚ) / v.files.length ≤ (p.videos : ℚ) / p.files.length))
      ∧ ∀ u ∈ pre, ¬ ((p.videos : ℚ) < u.videos ∨
            ((u.videos : ℚ) = p.videos ∧
              (p.videos : ℚ) / p.files.length ≤ (u.videos : ℚ) / u.files.length)) := by
  obtain ⟨p, hFM, hmem, hok⟩ := enrichRelease_ok_spec resp r gs hlook hne hfiles
  obtain ⟨pre, suf, hsplit, hpre, hall⟩ :=
    firstMax_spec (RLex versionKeys) (RLex_total versionKeys) (RLex_trans versionKeys)
      (gs.map buildVersion) p hFM
  refine ⟨p, pre, suf, hok, ?_, hsplit, ?_, ?_⟩
  · rw [insertionSort_head? (RLex versionKeys), hFM]
  · intro v hv
    exact (RLex_versionKeys_iff p v).mp (hall v hv)
  · intro u hu hcon
    exact hpre u hu ((RLex_versionKeys_iff u p).mpr hcon)

/-- Witness for `C5_primary_version_selection` at a concrete response with
two groupings for the kept hash. -/
theorem C5_primary_version_selection_witness :
    rdLookup [("a", [[⟨"1", "m.s1e1.mkv", 2 ^ 33⟩, ⟨"2", "junk.txt", 2 ^ 33⟩],
        [⟨"3", "m.s1e1.mkv", 2 ^ 34⟩]])] (Release.hash { hash := "a" }) =
      some [[⟨"1", "m.s1e1.mkv", 2 ^ 33⟩, ⟨"2", "junk.txt", 2 ^ 33⟩], [⟨"3", "m.s1e1.mkv", 2 ^ 34⟩]]
    ∧ ([[⟨"1", "m.s1e1.mkv", 2 ^ 33⟩, ⟨"2", "junk.txt", 2 ^ 33⟩],
        [⟨"3", "m.s1e1.mkv", 2 ^ 34⟩]] : List RDGroup) ≠ []
    ∧ (∀ g ∈ ([[⟨"1", "m.s1e1.mkv", 2 ^ 33⟩, ⟨"2", "junk.txt", 2 ^ 33⟩],
        [⟨"3", "m.s1e1.mkv", 2 ^ 34⟩]] : List RDGroup), g ≠ [])
    ∧ ∃ (p : Version) (pre suf : List Version),
      enrichRelease [("a", [[⟨"1", "m.s1e1.mkv", 2 ^ 33⟩, ⟨"2", "junk.txt", 2 ^ 33⟩],
          [⟨"3", "m.s1e1.mkv", 2 ^ 34⟩]])] { hash := "a" } = .ok { ({ hash := "a" } : Release) with
          versions := List.insertionSort (RLex versionKeys)
            (([[⟨"1", "m.s1e1.mkv", 2 ^ 33⟩, ⟨"2", "junk.txt", 2 ^ 33⟩],
              [⟨"3", "m.s1e1.mkv", 2 ^ 34⟩]] : List RDGroup).map buildVersion),
          size := p.size, videos := p.videos, seasons := p.seasons,
          episodes := p.episodes, cached := ["RD"] }
      ∧ (List.insertionSort (RLex versionKeys)
          (([[⟨"1", "m.s1e1.mkv", 2 ^ 33⟩, ⟨"2", "junk.txt", 2 ^ 33⟩],
            [⟨"3", "m.s1e1.mkv", 2 ^ 34⟩]] : List RDGroup).map buildVersion)).head? = some p
      ∧ ([[⟨"1", "m.s1e1.mkv", 2 ^ 33⟩, ⟨"2", "junk.txt", 2 ^ 33⟩],
          [⟨"3", "m.s1e1.mkv", 2 ^ 34⟩]] : List RDGroup).map buildVersion = pre ++ p :: suf
      ∧ (∀ v ∈ ([[⟨"1", "m.s1e1.mkv", 2 ^ 33⟩, ⟨"2", "junk.txt", 2 ^ 33⟩],
          [⟨"3", "m.s1e1.mkv", 2 ^ 34⟩]] : List RDGroup).map buildVersion,
          (v.videos : ℚ) < p.videos ∨
            ((p.videos : ℚ) = v.videos ∧
              (v.videos : ℚ) / v.files.length ≤ (p.videos : ℚ) / p.files.length))
      ∧ ∀ u ∈ pre, ¬ ((p.videos : ℚ) < u.videos ∨
            ((u.videos : ℚ) = p.videos ∧
              (p.videos : ℚ) / p.files.length ≤ (u.videos : ℚ) / u.files.length)) := by
  refine ⟨rfl, by simp, ?_, ?_⟩
  · intro g hg
    simp only [List.mem_cons, List.not_mem_nil, or_false] at hg
    rcases hg with rfl | rfl <;> simp
  · exact C5_primary_version_selection _ { hash := "a" } _ rfl (by simp)
      (by
        intro g hg
        simp only [List.mem_cons, List.not_mem_nil, or_false] at hg
        rcases hg with rfl | rfl <;> simp)

/-- C9: the per-file `size` computed by `realdebrid.check` is
`filesize / 2 ^ 33` (the code divides by `8 * 1024 * 1024 * 1024`, i.e. one
eighth of the value in GiB, despite the "Convert size to GB" comment); a
version's `size` is the grouping's total bytes divided by `2 ^ 33`; the
`size` promoted onto a kept release is that scaled value of its primary
grouping (so every size-based filter predicate and sort rule sees the scaled
value); and for a nonzero byte count the scaled value differs from the GiB
value `filesize / 1024 ^ 3`. -/
theorem C9_size_divided_by_two_pow_33 :
    (∀ fi : RDFile, (mkFileEntry fi).size = (fi.filesize : ℚ) / 2 ^ 33)
    ∧ (∀ g : RDGroup,
        (buildVersion g).size = ((g.map fun fi => (fi.filesize : ℚ)).sum) / 2 ^ 33)
    ∧ (∀ (resp : RDResponse) (r : Release) (gs : List RDGroup),
        rdLookup resp r.hash = some gs → gs ≠ [] → (∀ g ∈ gs, g ≠ []) →
        ∃ (r' : Release) (g : RDGroup), enrichRelease resp r = .ok r' ∧ g ∈ gs
          ∧ r'.size = ((g.map fun fi => (fi.filesize : ℚ)).sum) / 2 ^ 33)
    ∧ (∀ fi : RDFile, 0 < fi.filesize →
        (mkFileEntry fi).size ≠ (fi.filesize : ℚ) / 1024 ^ 3) := by
  refine ⟨mkFileEntry_size, buildVersion_size, ?_, ?_⟩
  · intro resp r gs hlook hne hfiles
    obtain ⟨p, _, hmem, hok⟩ := enrichRelease_ok_spec resp r gs hlook hne hfiles
    rcases List.mem_map.mp hmem with ⟨g, hg, rfl⟩
    exact ⟨_, g, hok, hg, by rw [show (Release.size _) = (buildVersion g).size from rfl,
      buildVersion_size]⟩
  · intro fi hpos hcon
    rw [mkFileEntry_size] at hcon
    have hx : (0 : ℚ) < (fi.filesize : ℚ) := by exact_mod_cast hpos
    rw [div_eq_div_iff (by positivity) (by positivity)] at hcon
    nlinarith [hcon]

/-- Witness for `C9_size_divided_by_two_pow_33` (third conjunct) at a
one-grouping response. -/
theorem C9_size_divided_by_two_pow_33_witness :
    rdLookup [("a", [[⟨"1", "a.mkv", 2 ^ 34⟩]])] (Release.hash { hash := "a" })
      = some [[⟨"1", "a.mkv", 2 ^ 34⟩]]
    ∧ ([[⟨"1", "a.mkv", 2 ^ 34⟩]] : List RDGroup) ≠ []
    ∧ (∀ g ∈ ([[⟨"1", "a.mkv", 2 ^ 34⟩]] : List RDGroup), g ≠ [])
    ∧ (0 : ℕ) < 5
    ∧ (∃ (r' : Release) (g : RDGroup),
        enrichRelease [("a", [[⟨"1", "a.mkv", 2 ^ 34⟩]])] { hash := "a" } = .ok r'
        ∧ g ∈ ([[⟨"1", "a.mkv", 2 ^ 34⟩]] : List RDGroup)
        ∧ r'.size = ((g.map fun fi => (fi.filesize : ℚ)).sum) / 2 ^ 33)
    ∧ (mkFileEntry ⟨"1", "a.mkv", 5⟩).size ≠ ((5 : ℕ) : ℚ) / 1024 ^ 3 := by
  refine ⟨rfl, by simp, ?_, by norm_num, ?_, ?_⟩
  · intro g hg
    simp only [List.mem_cons, List.not_mem_nil, or_false] at hg
    rcases hg with rfl; simp
  · exact C9_size_divided_by_two_pow_33.2.2.1 _ { hash := "a" } _ rfl (by simp)
      (by
        intro g hg
        simp only [List.mem_cons, List.not_mem_nil, or_false] at hg
        rcases hg with rfl; simp)
  · exact C9_size_divided_by_two_pow_33.2.2.2 ⟨"1", "a.mkv", 5⟩ (by norm_num)

/-- C10: primary-version selection is not total.  If the response reports,
for a kept hash, a grouping with zero files, the sort key
`x['videos'] / len(x['files'])` divides by zero; the resulting
`ZeroDivisionError` is caught only by `check`'s outer handler, so the
affected release keeps its appended-but-unsorted versions without promotion,
every release after it in the batch stays unenriched (only the
`cached = [] / versions = []` initialisation), and the already-filtered,
already-mutated list is still returned. -/
theorem C10_zero_file_grouping_aborts (resp : RDResponse) (releases pre post : List Release)
    (r0 : Release) (gs : List RDGroup)
    (hne : releases ≠ [])
    (hsplit : (releases.map check_init).filter (fun r => rdKept resp r.hash)
      = pre ++ r0 :: post)
    (hpre : ∀ r ∈ pre, ∃ r', enrichRelease resp r = .ok r')
    (hlook : rdLookup resp r0.hash = some gs) (hbad : ∃ g ∈ gs, g = []) :
    enrichRelease resp r0 = .error { r0 with versions := gs.map buildVersion }
    ∧ rd_check (some resp) releases
      = pre.map (fun r => ((enrichRelease resp r).toOption).getD r)
        ++ { r0 with versions := gs.map buildVersion } :: post := by
  have herr := enrichRelease_error_spec resp r0 gs hlook hbad
  refine ⟨herr, ?_⟩
  have hmapne : (releases.map check_init).isEmpty = false := by
    cases releases with
    | nil => exact absurd rfl hne
    | cons _ _ => rfl
  show (if (releases.map check_init).isEmpty then releases.map check_init
    else (checkLoop resp ((releases.map check_init).filter
      (fun r => rdKept resp r.hash))).1) = _
  rw [hmapne]
  simp only [Bool.false_eq_true, if_false]
  rw [hsplit, checkLoop_abandons resp pre r0 post _ hpre herr]

/-- Witness for `C10_zero_file_grouping_aborts`: hash `"a"` enriches fine,
hash `"b"` reports one empty grouping, so `"b"` and everything after it is
abandoned while the returned list keeps the change. -/
theorem C10_zero_file_grouping_aborts_witness :
    (([{ hash := "a" }, { hash := "b" }] : List Release) ≠ [])
    ∧ (([{ hash := "a" }, { hash := "b" }] : List Release).map check_init).filter
        (fun r => rdKept [("a", [[⟨"1", "a.mkv", 8⟩]]), ("b", [[]])] r.hash)
        = [check_init { hash := "a" }] ++ check_init { hash := "b" } :: []
    ∧ (∀ r ∈ [check_init ({ hash := "a" } : Release)], ∃ r',
        enrichRelease [("a", [[⟨"1", "a.mkv", 8⟩]]), ("b", [[]])] r = .ok r')
    ∧ rdLookup [("a", [[⟨"1", "a.mkv", 8⟩]]), ("b", [[]])]
        (Release.hash (check_init { hash := "b" })) = some [[]]
    ∧ (∃ g ∈ ([[]] : List RDGroup), g = [])
    ∧ enrichRelease [("a", [[⟨"1", "a.mkv", 8⟩]]), ("b", [[]])] (check_init { hash := "b" })
        = .error { (check_init { hash := "b" }) with versions := ([[]] : List RDGroup).map buildVersion }
    ∧ rd_check (some [("a", [[⟨"1", "a.mkv", 8⟩]]), ("b", [[]])])
        [{ hash := "a" }, { hash := "b" }]
      = [check_init { hash := "a" }].map
          (fun r => ((enrichRelease [("a", [[⟨"1", "a.mkv", 8⟩]]), ("b", [[]])] r).toOption).getD r)
        ++ { (check_init { hash := "b" }) with
              versions := ([[]] : List RDGroup).map buildVersion } :: [] := by
  have hpre : ∀ r ∈ [check_init ({ hash := "a" } : Release)], ∃ r',
      enrichRelease [("a", [[⟨"1", "a.mkv", 8⟩]]), ("b", [[]])] r = .ok r' := by
    intro r hr
    simp only [List.mem_singleton] at hr
    subst hr
    obtain ⟨p, -, -, hok⟩ := enrichRelease_ok_spec
      [("a", [[⟨"1", "a.mkv", 8⟩]]), ("b", [[]])] (check_init { hash := "a" })
      [[⟨"1", "a.mkv", 8⟩]] rfl (by simp)
      (by intro g hg; simp only [List.mem_singleton] at hg; subst hg; simp)
    exact ⟨_, hok⟩
  have h := C10_zero_file_grouping_aborts
    [("a", [[⟨"1", "a.mkv", 8⟩]]), ("b", [[]])]
    [{ hash := "a" }, { hash := "b" }]
    [check_init { hash := "a" }] [] (check_init { hash := "b" }) [[]]
    (by simp) rfl hpre rfl ⟨[], by simp, rfl⟩
  exact ⟨by simp, rfl, hpre, rfl, ⟨[], by simp, rfl⟩, h.1, h.2⟩

/-- C6: for a Show target with more than one requested season, the filter
keeps a Candidate — and, within a kept Candidate, keeps a Version — exactly
when the number of requested seasons it fails to cover is at most half the
requested season count AND its episode count is strictly greater than 1. -/
theorem C6_multi_season_filter (l : List Release) (s : List ℕ) (e : Option ℕ)
    (hs : 1 < s.length) :
    type_filter l "show" s e
      = (l.filter (fun r =>
          decide ((missingSeasons s r.seasons : ℚ) ≤ (s.length : ℚ) / 2 ∧ 1 < r.episodes))).map
          (fun r => { r with
            versions := r.versions.filter (fun v =>
              decide ((missingSeasons s v.seasons : ℚ) ≤ (s.length : ℚ) / 2 ∧ 1 < v.episodes)),
            rtype := "show" }) := by
  have hpred : ∀ (covered : List ℕ) (ep : ℕ),
      (!decide (multiSeasonRemove s covered ep))
        = decide ((missingSeasons s covered : ℚ) ≤ (s.length : ℚ) / 2 ∧ 1 < ep) := by
    intro covered ep
    rw [← decide_not, decide_eq_decide]
    unfold multiSeasonRemove
    push_neg
    rfl
  have h1 : (fun r : Release => !decide (multiSeasonRemove s r.seasons r.episodes))
      = (fun r : Release =>
          decide ((missingSeasons s r.seasons : ℚ) ≤ (s.length : ℚ) / 2 ∧ 1 < r.episodes)) :=
    funext fun r => hpred _ _
  have h2 : (fun v : Version => !decide (multiSeasonRemove s v.seasons v.episodes))
      = (fun v : Version =>
          decide ((missingSeasons s v.seasons : ℚ) ≤ (s.length : ℚ) / 2 ∧ 1 < v.episodes)) :=
    funext fun v => hpred _ _
  show (if ("show" : String) = "movie" then _ else if 1 < s.length then _ else _) = _
  rw [if_neg (by decide), if_pos hs, h1, h2]

/-- Witness for `C6_multi_season_filter`, at the spec's own example: seasons
{1,2,3}; a release covering only {1} is excluded, one covering {1,2} with
episode count 2 is kept, and within it a version covering only {1} is
pruned while one covering {1,2} stays. -/
theorem C6_multi_season_filter_witness :
    1 < ([1, 2, 3] : List ℕ).length
    ∧ type_filter
        [{ seasons := [1], episodes := 5,
           versions := [{ seasons := [1, 2], episodes := 2 }] },
         { seasons := [1, 2], episodes := 2,
           versions := [{ seasons := [1, 2], episodes := 2 }, { seasons := [1], episodes := 2 }] }]
        "show" [1, 2, 3] none
      = [{ seasons := [1, 2], episodes := 2,
           versions := [{ seasons := [1, 2], episodes := 2 }], rtype := "show" }] := by
  refine ⟨by norm_num, ?_⟩
  rw [C6_multi_season_filter _ _ _ (by norm_num)]
  have m1 : missingSeasons [1, 2, 3] [1] = 2 := by decide
  have m2 : missingSeasons [1, 2, 3] [1, 2] = 1 := by decide
  have c1 : ((missingSeasons [1, 2, 3] [1] : ℚ) ≤ (3 : ℚ) / 2) = False := by
    rw [m1]
    norm_num
  have c2 : ((missingSeasons [1, 2, 3] [1, 2] : ℚ) ≤ (3 : ℚ) / 2) = True := by
    rw [m2]
    norm_num
  simp [c1, c2]

/-- C8: the Ranking Engine's passes — the fixed stable sort by episode count
descending, then one stable descending sort per rule in listed order —
compose into a single stable lexicographic sort whose most significant key
is the *last*-applied rule, then the earlier rules in reverse order, and
finally the episode count; remaining full ties keep the filtered input
order (`List.insertionSort` is stable).  So ties left by an earlier rule
are broken by a later rule and the last rule dominates. -/
theorem C8_rule_order (FILTERS : List (Release → Bool)) (RULES : List (Release → ℚ))
    (l : List Release) :
    releases_sort FILTERS RULES l
      = List.insertionSort (RLex (RULES.reverse ++ [fun x : Release => (x.episodes : ℚ)]))
          (FILTERS.foldl (fun acc f => acc.filter f) l) := by
  show RULES.foldl _
      (List.insertionSort (RK fun x : Release => (x.episodes : ℚ))
        (FILTERS.foldl (fun acc f => acc.filter f) l)) = _
  rw [insertionSort_congr (RK fun x : Release => (x.episodes : ℚ))
      (RLex [fun x : Release => (x.episodes : ℚ)]) (RK_iff_RLex_single _)]
  exact foldl_insertionSort_rules RULES [fun x : Release => (x.episodes : ℚ)] _

/-- C1: the supersession short-circuit never fires.  Because the assignment
to `last_search_term` is function-local (missing `global` declaration), the
comparison `query == last_search_term` always holds, so a superseded search
is *not* abandoned: at the failing input — caller's query `"foo"`, a second
search `"bar"` recorded during the debounce wait — the spec's test fires
but the code's never does, and the handler runs the full pipeline instead
of returning the empty result. -/
theorem C1_supersession_never_fires :
    (∀ query globalTerm : String, handle_search_superseded query globalTerm = false)
    ∧ spec_search_superseded "foo" "bar" = true
    ∧ handle_search_superseded "foo" "bar" = false := by
  refine ⟨?_, rfl, rfl⟩
  intro q g
  simp [handle_search_superseded]

/-- C2, counterexample to the original claim: when the pipeline raises
(e.g. `KeyError` out of `type_filter` after a swallowed cache-check
failure, or `IndexError` out of `torrentio.search`), the handler exits with
the `processing` flag still `True` — it is *not* reset on this exit
path. -/
theorem C2_counterexample :
    (handle_availability_flag false (.error .keyError)).2 = true
    ∧ (handle_search_flag false (.error .indexError)).2 = true :=
  ⟨rfl, rfl⟩

/-- C2, corrected: on every *non-exceptional* exit — pipeline ran and
succeeded, or the pipeline was skipped because the flag was already set —
both handlers reset `processing` to `False` before completing; but on the
exceptional exit (pipeline raised while this call held the flag) the call
ends with the flag still `True`.  (It is reset only when a *subsequent*
call on the slot completes its own non-exceptional pass.) -/
theorem C2_flag_reset_amended :
    (∀ rs : List Release, (handle_availability_flag false (.ok rs)).2 = false)
    ∧ (∀ p : Except PyExc (List Release), (handle_availability_flag true p).2 = false)
    ∧ (∀ rs : List Release, (handle_search_flag false (.ok rs)).2 = false)
    ∧ (∀ p : Except PyExc (List Release), (handle_search_flag true p).2 = false)
    ∧ (∀ e : PyExc, (handle_availability_flag false (.error e)).2 = true)
    ∧ (∀ e : PyExc, (handle_search_flag false (.error e)).2 = true) :=
  ⟨fun _ => rfl, fun _ => rfl, fun _ => rfl, fun _ => rfl, fun _ => rfl, fun _ => rfl⟩

/-- C3, counterexample to the original claim: an unknown handle raises
`KeyError` and an out-of-range offset raises `NameError` — both uncaught
exceptions (HTTP 500), not a structured NotFound outcome. -/
theorem C3_counterexample :
    handle_download_access (data_store_put [] "h" [{}]) "g" 0 = .keyError
    ∧ handle_download_access (data_store_put [] "h" [{}]) "h" 1 = .nameError := by
  constructor
  · rfl
  · rfl

/-- C3, corrected: after `put(candidates) -> handle`, accessing
`(handle, i)` for `0 ≤ i < len` starts the download iteration at the
candidate of rank `i`; but an unknown handle raises `KeyError` and an
offset `≥ len` raises `NameError` (uncaught exceptions), rather than
producing a NotFound outcome. -/
theorem C3_ledger_amended (store : List (String × List Release)) (id : String)
    (rs : List Release) :
    (∀ (i : ℕ) (h : i < rs.length),
      handle_download_access (data_store_put store id rs) id i = .got (rs.get ⟨i, h⟩))
    ∧ (∀ (id' : String) (i : ℕ),
        (∀ p ∈ data_store_put store id rs, p.1 ≠ id') →
        handle_download_access (data_store_put store id rs) id' i = .keyError)
    ∧ (∀ i : ℕ, rs.length ≤ i →
        handle_download_access (data_store_put store id rs) id i = .nameError) := by
  have hlook : data_store_lookup (data_store_put store id rs) id = some rs := by
    simp [data_store_lookup, data_store_put, List.find?_cons]
  refine ⟨?_, ?_, ?_⟩
  · intro i h
    rw [handle_download_access, hlook]
    show (match List.drop i rs with
      | [] => DownloadAccess.nameError
      | r :: _ => DownloadAccess.got r) = _
    rw [List.drop_eq_getElem_cons h]
    simp
  · intro id' i hmiss
    have hnone : data_store_lookup (data_store_put store id rs) id' = none := by
      rw [data_store_lookup, List.find?_eq_none.mpr]
      · rfl
      · intro p hp
        simp only [beq_iff_eq]
        exact hmiss p hp
    rw [handle_download_access, hnone]
  · intro i h
    rw [handle_download_access, hlook]
    show (match List.drop i rs with
      | [] => DownloadAccess.nameError
      | r :: _ => DownloadAccess.got r) = _
    rw [List.drop_eq_nil_of_le h]

/-- Witness for `C3_ledger_amended` on a two-candidate ledger. -/
theorem C3_ledger_amended_witness :
    (1 : ℕ) < ([{ title := "r0" }, { title := "r1" }] : List Release).length
    ∧ handle_download_access (data_store_put [] "h" [{ title := "r0" }, { title := "r1" }]) "h" 1
        = .got { title := "r1" }
    ∧ (∀ p ∈ data_store_put [] "h" [({ title := "r0" } : Release), { title := "r1" }],
        p.1 ≠ "g")
    ∧ handle_download_access (data_store_put [] "h" [{ title := "r0" }, { title := "r1" }]) "g" 0
        = .keyError
    ∧ handle_download_access (data_store_put [] "h" [{ title := "r0" }, { title := "r1" }]) "h" 2
        = .nameError := by
  have hg : ∀ p ∈ data_store_put [] "h" [({ title := "r0" } : Release), { title := "r1" }],
      p.1 ≠ "g" := by
    intro p hp
    simp only [data_store_put, List.mem_singleton] at hp
    subst hp
    decide
  refine ⟨by decide, ?_, hg, ?_, ?_⟩
  · exact (C3_ledger_amended [] "h" [{ title := "r0" }, { title := "r1" }]).1 1 (by decide)
  · exact (C3_ledger_amended [] "h" [{ title := "r0" }, { title := "r1" }]).2.1 "g" 0 hg
  · exact (C3_ledger_amended [] "h" [{ title := "r0" }, { title := "r1" }]).2.2 2 (by decide)

theorem session_request_loop_none (rc : List ℕ) (attempts : ℕ → AttemptResult)
    (h : ∀ i s, attempts i = .resp s → s ∈ rc) :
    ∀ (fuel i : ℕ), session_request_loop rc attempts i fuel = none
  | 0, _ => rfl
  | fuel + 1, i => by
      rw [session_request_loop]
      rcases hA : attempts i with _ | s
      · exact session_request_loop_none rc attempts h fuel (i + 1)
      · show (if s ∈ rc then session_request_loop rc attempts (i + 1) fuel else some s) = none
        rw [if_pos (h i s hA)]
        exact session_request_loop_none rc attempts h fuel (i + 1)

/-- C4, counterexample to the original claim, at the concrete failing input
"every attempt raises": exhausted retries make the external call return
`None` instead of raising; the enclosing source fetch then yields an *empty
successful* result (the resolution proceeds and publishes an empty
snapshot, it is not aborted); and the enclosing cache check returns the
release list with its `cached = [] / versions = []` initialisation already
applied — a partial snapshot. -/
theorem C4_counterexample :
    session_request [429, 503] 3 (fun _ => .excepted) = none
    ∧ scrape none (fun _ => none) = .ok []
    ∧ rd_check none [{ hash := "x" }] = [check_init { hash := "x" }] := by
  refine ⟨rfl, rfl, rfl⟩

/-- C4, corrected: if every underlying attempt fails (exception or a
retryable status), `session.request` returns `None` — the call "fails" by
returning `None` rather than raising.  The enclosing resolution is *not*
aborted with no partial snapshot: `torrentio.scrape` catches the resulting
exception and returns `.ok []` (an empty snapshot that the resolution then
publishes as a success), and `realdebrid.check` catches it and returns the
input list with every release's `cached`/`versions` keys initialised but no
release enriched or filtered (a partial snapshot). -/
theorem C4_failures_swallowed_amended :
    (∀ (rc : List ℕ) (attempts : ℕ → AttemptResult),
      (∀ i s, attempts i = .resp s → s ∈ rc) →
      ∀ n, session_request rc n attempts = none)
    ∧ (∀ parseEntry : StreamEntry → Option Release, scrape none parseEntry = .ok [])
    ∧ (∀ rs : List Release, rs ≠ [] → rd_check none rs = rs.map check_init) := by
  refine ⟨?_, fun _ => rfl, ?_⟩
  · intro rc attempts h n
    exact session_request_loop_none rc attempts h n 0
  · intro rs hne
    have hmapne : (rs.map check_init).isEmpty = false := by
      cases rs with
      | nil => exact absurd rfl hne
      | cons _ _ => rfl
    show (if (rs.map check_init).isEmpty then rs.map check_init else _) = _
    rw [hmapne]
    simp only [Bool.false_eq_true, if_false]

/-- Witness for `C4_failures_swallowed_amended` at the failing input. -/
theorem C4_failures_swallowed_amended_witness :
    (∀ i s, (fun _ : ℕ => AttemptResult.excepted) i = .resp s → s ∈ ([429, 503] : List ℕ))
    ∧ session_request [429, 503] 3 (fun _ => .excepted) = none
    ∧ scrape none (fun _ => none) = .ok []
    ∧ (([{ hash := "x" }] : List Release) ≠ [])
    ∧ rd_check none [{ hash := "x" }] = ([{ hash := "x" }] : List Release).map check_init := by
  have hatt : ∀ i s, (fun _ : ℕ => AttemptResult.excepted) i = .resp s →
      s ∈ ([429, 503] : List ℕ) := by
    intro i s h
    exact absurd h (by simp)
  refine ⟨hatt, ?_, ?_, by simp, ?_⟩
  · exact C4_failures_swallowed_amended.1 [429, 503] (fun _ => .excepted) hatt 3
  · exact C4_failures_swallowed_amended.2.1 (fun _ => none)
  · exact C4_failures_swallowed_amended.2.2 [{ hash := "x" }] (by simp)

end PdInject

